import Mathlib

/-!
Verification development for the Kaleidoscope front end
(src/kaleidoscope/src/main.cpp): a shallow embedding of the lexer, the
operator-precedence parser and the LLVM-lowering driver, together with
theorems settling the specification's claims about them.

Modelling conventions:
* The C input stream (getchar with one character of pushback in the static
  LastChar, EOF = -1) is modelled as a pair of the pushback character
  (Option Char, none = EOF) and the remaining input (List Char).
* C doubles are modelled as rationals; the lexer's strtod call is modelled
  by strtodModel below, which follows strtod's behaviour on the digit/dot
  strings the lexer can ever hand it.
* std::map is modelled as an association list in insertion order; only
  lookup, operator-bracket access (which default-inserts) and assignment
  are used by the program, and none of them depends on std::map's key
  ordering.
* Recursion that the C code expresses as loops or as recursion on the
  input stream is given a fuel argument; wrappers supply fuel that is
  provably sufficient (the lexer consumes input on every recursive call).
-/

namespace Kaleidoscope

/-- The token kind returned by gettok: the Token enum of main.cpp plus the
payloads carried in the IdentifierStr/NumVal globals (an identifier's text,
a number's value) and, for the default case, the character itself. -/
inductive Tok where
  | eof : Tok
  | kdef : Tok
  | kextern : Tok
  | ident : String → Tok
  | number : Rat → Tok
  | ch : Char → Tok
  deriving DecidableEq, Repr

/-- C isspace on the lexer's current character (none models EOF, for which
every ctype predicate is false). -/
def isSpaceO : Option Char → Bool
  | none => false
  | some c => c = ' ' || c = '\t' || c = '\n' || c = '\r' || c = '\x0b' || c = '\x0c'

/-- C isalpha (ASCII letters) lifted to the optional current character. -/
def isAlphaO : Option Char → Bool
  | none => false
  | some c => c.isAlpha

/-- C isdigit lifted to the optional current character. -/
def isDigitO : Option Char → Bool
  | none => false
  | some c => c.isDigit

/-- The whitespace-skipping loop of gettok: `while (isspace(LastChar))
LastChar = getchar();`.  Returns the new LastChar and remaining input. -/
def skipWs : Option Char → List Char → Option Char × List Char
  | c, [] => if isSpaceO c then (none, []) else (c, [])
  | c, x :: xs => if isSpaceO c then skipWs (some x) xs else (c, x :: xs)

/-- The identifier loop of gettok: `while (isalnum((LastChar = getchar())))
IdentifierStr += LastChar;`.  acc already holds the first character. -/
def identLoop (acc : String) : List Char → String × Option Char × List Char
  | [] => (acc, none, [])
  | x :: xs => if x.isAlphanum then identLoop (acc.push x) xs else (acc, some x, xs)

/-- The number loop of gettok: `do { NumStr += LastChar; LastChar =
getchar(); } while (isdigit(LastChar) || LastChar == '.');`.  acc already
holds the first character. -/
def numLoop (acc : String) : List Char → String × Option Char × List Char
  | [] => (acc, none, [])
  | x :: xs =>
    if x.isDigit || x = '.' then numLoop (acc.push x) xs else (acc, some x, xs)

/-- The comment loop of gettok: `do LastChar = getchar(); while (LastChar
!= EOF && LastChar != '\n' && LastChar != '\r');`. -/
def skipComment : List Char → Option Char × List Char
  | [] => (none, [])
  | x :: xs => if x = '\n' || x = '\r' then (some x, xs) else skipComment xs

/-- The value of a list of decimal digit characters. -/
def digitsVal (l : List Char) : Nat :=
  l.foldl (fun n c => 10 * n + (c.toNat - 48)) 0

/-- Model of `strtod(NumStr.c_str(), 0)` on the strings the lexer produces
(nonempty runs of digits and dots): strtod consumes the longest valid
prefix, i.e. an optional run of digits, then optionally a dot followed by a
run of digits, and ignores the rest; with no valid prefix it returns 0. -/
def strtodModel (s : String) : Rat :=
  let cs := s.toList
  let intPart := cs.takeWhile Char.isDigit
  let rest := cs.dropWhile Char.isDigit
  let fracPart :=
    match rest with
    | '.' :: r => r.takeWhile Char.isDigit
    | _ => []
  mkRat (digitsVal intPart * 10 ^ fracPart.length + digitsVal fracPart)
    (10 ^ fracPart.length)

/-- Fueled body of gettok.  The only self-recursion in gettok is the
`return gettok();` after a line comment, which always consumes at least one
input character, so fuel `input.length + 1` (supplied by the wrapper
`gettok` below) is always sufficient.  Out of fuel it returns the
end-of-input token (never reached with the wrapper's fuel). -/
def gettokF : Nat → Option Char → List Char → Tok × Option Char × List Char
  | 0, _, inp => (.eof, none, inp)
  | fuel + 1, c0, inp0 =>
    match skipWs c0 inp0 with
    | (none, inp) => (.eof, none, inp)
    | (some c, inp) =>
      if c.isAlpha then
        match identLoop (String.singleton c) inp with
        | (id, c', inp') =>
          (if id = "def" then Tok.kdef
           else if id = "extern" then Tok.kextern
           else Tok.ident id, c', inp')
      else if c.isDigit || c = '.' then
        match numLoop (String.singleton c) inp with
        | (numStr, c', inp') => (Tok.number (strtodModel numStr), c', inp')
      else if c = '#' then
        match skipComment inp with
        | (some c2, inp2) => gettokF fuel (some c2) inp2
        | (none, inp2) => (.eof, none, inp2)
      else
        match inp with
        | [] => (.ch c, none, [])
        | x :: xs => (.ch c, some x, xs)

/-- gettok: returns the next token together with the new LastChar pushback
and the remaining input.  The initial LastChar is ' ' (the static
initializer in main.cpp). -/
def gettok (c : Option Char) (inp : List Char) : Tok × Option Char × List Char :=
  gettokF (inp.length + 1) c inp

/-- The lexer state seen across gettok calls: the LastChar pushback
(none = EOF) and the not-yet-read input. -/
def lexStep (s : Option Char × List Char) : Tok × Option Char × List Char :=
  gettok s.1 s.2

/-- Runs gettok repeatedly from the initial lexer state, collecting tokens
until the end-of-input token. -/
def lexAllF : Nat → Option Char → List Char → List Tok
  | 0, _, _ => []
  | fuel + 1, c, inp =>
    match gettok c inp with
    | (.eof, _, _) => []
    | (t, c', inp') => t :: lexAllF fuel c' inp'

/-- The token sequence of a source string (initial LastChar is ' '). -/
def tokenize (s : String) : List Tok :=
  lexAllF (s.length + 1) (some ' ') s.toList

/-! ### AST model

The expression node classes NumberExprAST, VariableExprAST, BinaryExprAST
and CallExprAST of main.cpp, collapsed into one closed sum (the virtual
codegen dispatch becomes a match). -/

inductive Expr where
  | numberExpr : Rat → Expr
  | variableExpr : String → Expr
  | binaryExpr : Char → Expr → Expr → Expr
  | callExpr : String → List Expr → Expr

mutual

/-- Structural equality decider for Expr (deriving cannot handle the
nested List Expr). -/
def decEqExpr : (a b : Expr) → Decidable (a = b)
  | .numberExpr x, .numberExpr y =>
    match decEq x y with
    | isTrue h => isTrue (by rw [h])
    | isFalse h => isFalse (fun hh => by cases hh; exact h rfl)
  | .variableExpr x, .variableExpr y =>
    match decEq x y with
    | isTrue h => isTrue (by rw [h])
    | isFalse h => isFalse (fun hh => by cases hh; exact h rfl)
  | .binaryExpr o1 l1 r1, .binaryExpr o2 l2 r2 =>
    match decEq o1 o2, decEqExpr l1 l2, decEqExpr r1 r2 with
    | isTrue h1, isTrue h2, isTrue h3 => isTrue (by rw [h1, h2, h3])
    | isFalse h1, _, _ => isFalse (fun hh => by cases hh; exact h1 rfl)
    | _, isFalse h2, _ => isFalse (fun hh => by cases hh; exact h2 rfl)
    | _, _, isFalse h3 => isFalse (fun hh => by cases hh; exact h3 rfl)
  | .callExpr c1 a1, .callExpr c2 a2 =>
    match decEq c1 c2, decEqExprList a1 a2 with
    | isTrue h1, isTrue h2 => isTrue (by rw [h1, h2])
    | isFalse h1, _ => isFalse (fun hh => by cases hh; exact h1 rfl)
    | _, isFalse h2 => isFalse (fun hh => by cases hh; exact h2 rfl)
  | .numberExpr _, .variableExpr _ => isFalse (fun hh => by cases hh)
  | .numberExpr _, .binaryExpr _ _ _ => isFalse (fun hh => by cases hh)
  | .numberExpr _, .callExpr _ _ => isFalse (fun hh => by cases hh)
  | .variableExpr _, .numberExpr _ => isFalse (fun hh => by cases hh)
  | .variableExpr _, .binaryExpr _ _ _ => isFalse (fun hh => by cases hh)
  | .variableExpr _, .callExpr _ _ => isFalse (fun hh => by cases hh)
  | .binaryExpr _ _ _, .numberExpr _ => isFalse (fun hh => by cases hh)
  | .binaryExpr _ _ _, .variableExpr _ => isFalse (fun hh => by cases hh)
  | .binaryExpr _ _ _, .callExpr _ _ => isFalse (fun hh => by cases hh)
  | .callExpr _ _, .numberExpr _ => isFalse (fun hh => by cases hh)
  | .callExpr _ _, .variableExpr _ => isFalse (fun hh => by cases hh)
  | .callExpr _ _, .binaryExpr _ _ _ => isFalse (fun hh => by cases hh)

/-- Structural equality decider for argument lists. -/
def decEqExprList : (a b : List Expr) → Decidable (a = b)
  | [], [] => isTrue rfl
  | [], _ :: _ => isFalse (fun hh => by cases hh)
  | _ :: _, [] => isFalse (fun hh => by cases hh)
  | x :: xs, y :: ys =>
    match decEqExpr x y, decEqExprList xs ys with
    | isTrue h1, isTrue h2 => isTrue (by rw [h1, h2])
    | isFalse h1, _ => isFalse (fun hh => by cases hh; exact h1 rfl)
    | _, isFalse h2 => isFalse (fun hh => by cases hh; exact h2 rfl)

end

instance : DecidableEq Expr := decEqExpr

/-- PrototypeAST: a function name and its parameter names. -/
structure PrototypeAST where
  name : String
  args : List String
  deriving DecidableEq, Repr

/-- FunctionAST: a prototype plus a single-expression body. -/
structure FunctionAST where
  proto : PrototypeAST
  body : Expr

instance : DecidableEq FunctionAST := fun a b =>
  match a, b with
  | ⟨p1, b1⟩, ⟨p2, b2⟩ =>
    match decEq p1 p2, decEqExpr b1 b2 with
    | isTrue h1, isTrue h2 => isTrue (by rw [h1, h2])
    | isFalse h1, _ => isFalse (fun hh => by cases hh; exact h1 rfl)
    | _, isFalse h2 => isFalse (fun hh => by cases hh; exact h2 rfl)

/-! ### Parser

The parser state: the one-token lookahead CurTok, the rest of the token
stream (an exhausted stream keeps yielding the end-of-input token, matching
the lexer's absorbing EOF), and the BinopPrecedence map, which lives in the
parser state because the map's bracket operator inside GetTokPrecedence
default-inserts missing keys. -/

structure PState where
  curTok : Tok
  toks : List Tok
  prec : List (Char × Int)
  deriving DecidableEq, Repr

/-- getNextToken: CurTok = gettok(). -/
def getNextToken (s : PState) : PState :=
  match s.toks with
  | [] => { s with curTok := .eof }
  | t :: ts => { s with curTok := t, toks := ts }

/-- The four BinopPrecedence entries installed at the top of main. -/
def startupPrecedence : List (Char × Int) :=
  [('<', 10), ('+', 20), ('-', 20), ('*', 40)]

/-- std::map lookup (find without insertion). -/
def mapFind (m : List (Char × Int)) (k : Char) : Option Int :=
  (m.find? (fun p => p.1 == k)).map (fun p => p.2)

/-- std::map bracket access: returns the mapped value, default-inserting
the key with value 0 (value-initialized int) when it is absent. -/
def mapIndex (m : List (Char × Int)) (k : Char) : Int × List (Char × Int) :=
  match m.find? (fun p => p.1 == k) with
  | some p => (p.2, m)
  | none => (0, m ++ [(k, 0)])

/-- GetTokPrecedence: -1 for non-ASCII CurTok (all the negative Token enum
values), otherwise the BinopPrecedence bracket access, with results <= 0
reported as -1.  The bracket access can grow the map. -/
def GetTokPrecedence (s : PState) : Int × PState :=
  match s.curTok with
  | .ch c =>
    if c.toNat ≤ 127 then
      match mapIndex s.prec c with
      | (tokPrec, m) => (if tokPrec ≤ 0 then -1 else tokPrec, { s with prec := m })
    else (-1, s)
  | _ => (-1, s)

/-- ParseNumberExpr: wraps NumVal (the number token's payload) in a
NumberExprAST and advances.  ParsePrimary only dispatches here on a number
token; on any other token this model fails. -/
def ParseNumberExpr (s : PState) : Option Expr × PState :=
  match s.curTok with
  | .number v => (some (.numberExpr v), getNextToken s)
  | _ => (none, s)

mutual

/-- ParseParenExpr: eat '(', parse an expression, require ')', eat it; the
parenthesized expression is returned unwrapped. -/
def ParseParenExpr : Nat → PState → Option Expr × PState
  | 0, s => (none, s)
  | fuel + 1, s =>
    let s := getNextToken s
    match ParseExpression fuel s with
    | (none, s) => (none, s)
    | (some v, s) =>
      if s.curTok ≠ .ch ')' then (none, s)
      else (some v, getNextToken s)

/-- ParseIdentifierExpr, dispatched with IdentifierStr (the identifier
token's payload): a bare variable reference unless a '(' follows, in which
case a comma-separated argument list up to ')' makes a CallExprAST. -/
def ParseIdentifierExpr : Nat → String → PState → Option Expr × PState
  | 0, _, s => (none, s)
  | fuel + 1, idName, s =>
    let s := getNextToken s
    if s.curTok ≠ .ch '(' then (some (.variableExpr idName), s)
    else
      let s := getNextToken s
      match
        (if s.curTok = .ch ')' then (some [], s)
         else ParseArgsLoop fuel [] s : Option (List Expr) × PState)
      with
      | (none, s) => (none, s)
      | (some args, s) => (some (.callExpr idName args), getNextToken s)

/-- The argument-list loop inside ParseIdentifierExpr: parse an expression,
stop at ')', require ',' between arguments. -/
def ParseArgsLoop : Nat → List Expr → PState → Option (List Expr) × PState
  | 0, _, s => (none, s)
  | fuel + 1, acc, s =>
    match ParseExpression fuel s with
    | (none, s) => (none, s)
    | (some arg, s) =>
      let acc := acc ++ [arg]
      if s.curTok = .ch ')' then (some acc, s)
      else if s.curTok ≠ .ch ',' then (none, s)
      else ParseArgsLoop fuel acc (getNextToken s)

/-- ParsePrimary: identifier, number or parenthesized expression; anything
else is a parse error (null result). -/
def ParsePrimary : Nat → PState → Option Expr × PState
  | 0, s => (none, s)
  | fuel + 1, s =>
    match s.curTok with
    | .ident name => ParseIdentifierExpr fuel name s
    | .number _ => ParseNumberExpr s
    | .ch '(' => ParseParenExpr fuel s
    | _ => (none, s)

/-- ParseBinOpRHS: the precedence-climbing loop.  While the lookahead
operator's precedence is at least exprPrec: consume the operator, parse a
primary, absorb any tighter-binding following operator into it at
precedence TokPrec + 1, fold into a BinaryExprAST and continue.  The
operator-token extraction returns a char because a precedence >= 0 is only
ever reported for a single-character token. -/
def ParseBinOpRHS : Nat → Int → Expr → PState → Option Expr × PState
  | 0, _, _, s => (none, s)
  | fuel + 1, exprPrec, lhs, s =>
    match GetTokPrecedence s with
    | (tokPrec, s) =>
      if tokPrec < exprPrec then (some lhs, s)
      else
        match s.curTok with
        | .ch binOp =>
          let s := getNextToken s
          match ParsePrimary fuel s with
          | (none, s) => (none, s)
          | (some rhs, s) =>
            match GetTokPrecedence s with
            | (nextPrec, s) =>
              if tokPrec < nextPrec then
                match ParseBinOpRHS fuel (tokPrec + 1) rhs s with
                | (none, s) => (none, s)
                | (some rhs, s) =>
                  ParseBinOpRHS fuel exprPrec (.binaryExpr binOp lhs rhs) s
              else ParseBinOpRHS fuel exprPrec (.binaryExpr binOp lhs rhs) s
        | _ => (none, s)

/-- ParseExpression: a primary followed by ParseBinOpRHS at minimum
precedence 0. -/
def ParseExpression : Nat → PState → Option Expr × PState
  | 0, s => (none, s)
  | fuel + 1, s =>
    match ParsePrimary fuel s with
    | (none, s) => (none, s)
    | (some lhs, s) => ParseBinOpRHS fuel 0 lhs s

end

/-- The parameter-name loop of ParsePrototype:
while (getNextToken() == tok_identifier) ArgNames.push_back(IdentifierStr). -/
def ParseParamLoop : Nat → List String → PState → List String × PState
  | 0, acc, s => (acc, s)
  | fuel + 1, acc, s =>
    let s := getNextToken s
    match s.curTok with
    | .ident n => ParseParamLoop fuel (acc ++ [n]) s
    | _ => (acc, s)

/-- ParsePrototype: an identifier, '(', greedily consumed identifier
parameter names, ')'. -/
def ParsePrototype (fuel : Nat) (s : PState) : Option PrototypeAST × PState :=
  match s.curTok with
  | .ident fnName =>
    let s := getNextToken s
    if s.curTok ≠ .ch '(' then (none, s)
    else
      match ParseParamLoop fuel [] s with
      | (argNames, s) =>
        if s.curTok ≠ .ch ')' then (none, s)
        else (some ⟨fnName, argNames⟩, getNextToken s)
  | _ => (none, s)

/-- ParseDefinition: 'def', a prototype, a single expression body. -/
def ParseDefinition (fuel : Nat) (s : PState) : Option FunctionAST × PState :=
  let s := getNextToken s
  match ParsePrototype fuel s with
  | (none, s) => (none, s)
  | (some proto, s) =>
    match ParseExpression fuel s with
    | (none, s) => (none, s)
    | (some e, s) => (some ⟨proto, e⟩, s)

/-- ParseExtern: 'extern' followed by a prototype. -/
def ParseExtern (fuel : Nat) (s : PState) : Option PrototypeAST × PState :=
  ParsePrototype fuel (getNextToken s)

/-- ParseTopLevelExpr: a bare expression wrapped in an anonymous nullary
prototype. -/
def ParseTopLevelExpr (fuel : Nat) (s : PState) : Option FunctionAST × PState :=
  match ParseExpression fuel s with
  | (none, s) => (none, s)
  | (some e, s) => (some ⟨⟨"", []⟩, e⟩, s)

/-- The parser state main sets up before the loop: the startup precedence
table and one getNextToken to fill CurTok. -/
def mkPState (ts : List Tok) : PState :=
  getNextToken { curTok := .eof, toks := ts, prec := startupPrecedence }

/-! ### Reference tree shape for operator sequences

A valid operator sequence is a chain n0 op1 n1 ... opk nk whose operators
all carry a positive precedence in the startup table.  The definitions
below give the spec-side expected tree for such a chain, to be compared
with what the source parser builds. -/

/-- The precedence an operator carries in the startup table (-1 if none),
the weight the spec's grouping rules speak about. -/
def precOf (c : Char) : Int :=
  match mapFind startupPrecedence c with
  | some v => v
  | none => -1

/-- The token list of the operator/number part of a chain. -/
def opToks (ops : List (Char × Rat)) : List Tok :=
  ops.flatMap (fun p => [.ch p.1, .number p.2])

/-- The token list of a whole chain n0 op1 n1 ... opk nk. -/
def chainToks (a : Rat) (ops : List (Char × Rat)) : List Tok :=
  .number a :: opToks ops

/-- The parser state whose lookahead and stream hold exactly the
operator/number part of a chain (startup precedence table). -/
def chainState (ops : List (Char × Rat)) : PState :=
  getNextToken { curTok := .eof, toks := opToks ops, prec := startupPrecedence }

/-- Modelled from the spec's grouping rules: extending a parse tree with
the next operator and operand of the sequence.  An operator that binds
strictly tighter than the root is absorbed lower, into the right-hand
subtree; an operator binding no tighter (equal precedence included)
becomes the new root with the whole tree so far as its left operand —
strict left associativity at equal precedence, tighter-binding operators
lower in the tree. -/
def insertOp : Expr → Char → Rat → Expr
  | .binaryExpr oR l r, o, b =>
    if precOf oR < precOf o then .binaryExpr oR l (insertOp r o b)
    else .binaryExpr o (.binaryExpr oR l r) (.numberExpr b)
  | t, o, b => .binaryExpr o t (.numberExpr b)

/-- The spec-side expected tree of a chain: fold the grouping rule over
the operator sequence from the left. -/
def specTree (a : Rat) (ops : List (Char × Rat)) : Expr :=
  ops.foldl (fun t p => insertOp t p.1 p.2) (.numberExpr a)

/-! ### Lowering / code generation

llvm::Value results are modelled as the data-flow trees the IRBuilder
constructs: constants, references to function arguments, and the emitted
instructions.  A C++ null Value pointer is modelled as none; a call
instruction keeps Option Value arguments because the source can pass a
null argument pointer to CreateCall (see CallExprAST::codegen). -/

inductive Value where
  | constantFP : Rat → Value
  | argVal : Nat → String → Value
  | faddV : Value → Value → Value
  | fsubV : Value → Value → Value
  | fmulV : Value → Value → Value
  | fcmpULTV : Value → Value → Value
  | uitofpV : Value → Value
  | callV : String → List (Option Value) → Value

/-- llvm::Function as far as this program observes it: its name, its
named parameters (set by PrototypeAST::codegen), whether it has a basic
block yet (function->empty() is the negation), and the emitted return
value once the body is lowered. -/
structure FunctionIR where
  name : String
  args : List String
  hasEntry : Bool
  retVal : Option Value

/-- module->getFunction: lookup by name among the accumulated functions. -/
def getFunction (m : List FunctionIR) (name : String) : Option FunctionIR :=
  m.find? (fun f => f.name == name)

/-- Replaces the (first) function of the given name; models in-place
mutation of a function object held by the module. -/
def moduleUpdate : List FunctionIR → String → FunctionIR → List FunctionIR
  | [], _, _ => []
  | f :: rest, n, g => if f.name == n then g :: rest else f :: moduleUpdate rest n g

/-- function->eraseFromParent(): removes the function from the module. -/
def moduleErase : List FunctionIR → String → List FunctionIR
  | [], _ => []
  | f :: rest, n => if f.name == n then rest else f :: moduleErase rest n

/-- The mutable lowering state: the persistent module, the NamedValues
symbol scope, and the accumulated stderr diagnostics of LogError. -/
structure CGState where
  module : List FunctionIR
  namedValues : List (String × Option Value)
  errors : List String

/-- LogError / LogErrorV: records the diagnostic (the null return is the
none result at each use site). -/
def logError (st : CGState) (msg : String) : CGState :=
  { st with errors := st.errors ++ [msg] }

/-- std::map bracket access on NamedValues: the mapped value, with a null
value default-inserted when the name is absent. -/
def nvBracket (m : List (String × Option Value)) (k : String) :
    Option Value × List (String × Option Value) :=
  match m.find? (fun p => p.1 == k) with
  | some p => (p.2, m)
  | none => (none, m ++ [(k, none)])

/-- std::map assignment NamedValues[k] = v. -/
def nvAssign : List (String × Option Value) → String → Option Value →
    List (String × Option Value)
  | [], k, v => [(k, v)]
  | p :: rest, k, v => if p.1 == k then (k, v) :: rest else p :: nvAssign rest k v

mutual

/-- The codegen virtual methods of the ExprAST classes, as one match.
Faithful points: VariableExprAST reads NamedValues with the bracket
operator (default-inserting a null binding on a miss) and returns the
possibly-null value after logging; BinaryExprAST computes both L and R by
lowering LHS (the source reads `R = LHS->codegen()`), so the left operand
is lowered twice and the right operand never; CallExprAST's per-argument
null check tests `Args.back()` — an AST owning pointer that is never null —
so a failed argument is passed through to CreateCall as a null value. -/
def codegenExpr : Expr → CGState → Option Value × CGState
  | .numberExpr v, st => (some (.constantFP v), st)
  | .variableExpr name, st =>
    match nvBracket st.namedValues name with
    | (v, nv) =>
      let st := { st with namedValues := nv }
      match v with
      | none => (none, logError st "Unkown variable name.")
      | some x => (some x, st)
  | .binaryExpr op lhs _rhs, st =>
    match codegenExpr lhs st with
    | (lres, st) =>
      match codegenExpr lhs st with
      | (rres, st) =>
        match lres, rres with
        | some l, some r =>
          if op = '+' then (some (.faddV l r), st)
          else if op = '-' then (some (.fsubV l r), st)
          else if op = '*' then (some (.fmulV l r), st)
          else if op = '<' then (some (.uitofpV (.fcmpULTV l r)), st)
          else (none, logError st "Invalid binary operator.")
        | _, _ => (none, st)
  | .callExpr callee args, st =>
    match getFunction st.module callee with
    | none => (none, logError st "Unkown function refrenced.")
    | some f =>
      if f.args.length ≠ args.length then
        (none, logError st "Incorrect number of arguments passed.")
      else
        match codegenArgs args st with
        | (argsV, st) => (some (.callV callee argsV), st)

/-- The argument loop of CallExprAST::codegen: lowers each argument left
to right, pushing every result (null results included, see above). -/
def codegenArgs : List Expr → CGState → List (Option Value) × CGState
  | [], st => ([], st)
  | a :: rest, st =>
    match codegenExpr a st with
    | (v, st) =>
      match codegenArgs rest st with
      | (vs, st) => (v :: vs, st)

end

/-- PrototypeAST::codegen: creates the function (one double parameter per
name, double return), registers it in the module and names its parameters
in declaration order.  It never fails. -/
def prototypeCodegen (p : PrototypeAST) (st : CGState) : FunctionIR × CGState :=
  let f : FunctionIR := ⟨p.name, p.args, false, none⟩
  (f, { st with module := st.module ++ [f] })

/-- The first step of FunctionAST::codegen: reuse the module's function of
the prototype's name if present, otherwise lower the prototype. -/
def resolveFn (fn : FunctionAST) (st : CGState) : FunctionIR × CGState :=
  match getFunction st.module fn.proto.name with
  | some f => (f, st)
  | none => prototypeCodegen fn.proto st

/-- The NamedValues loop of FunctionAST::codegen: clear the scope, then
bind each argument name of the resolved function to its argument value. -/
def buildScope : List String → Nat → List (String × Option Value) →
    List (String × Option Value)
  | [], _, m => m
  | a :: rest, i, m => buildScope rest (i + 1) (nvAssign m a (some (.argVal i a)))

/-- The state in which FunctionAST::codegen lowers the body: the entry
basic block has been created on the resolved function and NamedValues has
been rebuilt from the resolved function's own parameter names. -/
def entryState (f : FunctionIR) (st : CGState) : CGState :=
  { st with
      module := moduleUpdate st.module f.name { f with hasEntry := true },
      namedValues := buildScope f.args 0 [] }

/-- FunctionAST::codegen: resolve or create the function; fail with a
redefinition error if it already has a body; otherwise create the entry
block, rebuild the scope, lower the body, and either emit the return and
keep the function or erase the function from the module. -/
def functionCodegen (fn : FunctionAST) (st : CGState) : Option FunctionIR × CGState :=
  match resolveFn fn st with
  | (f, st) =>
    if f.hasEntry then (none, logError st "Function cannot be redefined.")
    else
      match codegenExpr fn.body (entryState f st) with
      | (some retVal, st2) =>
        let f2 : FunctionIR := { f with hasEntry := true, retVal := some retVal }
        (some f2, { st2 with module := moduleUpdate st2.module f.name f2 })
      | (none, st2) => (none, { st2 with module := moduleErase st2.module f.name })

/-- The empty lowering session (InitializeModule). -/
def emptyCG : CGState := ⟨[], [], []⟩

/-! ### Theorems -/

/-- C1 (code evaluated at the failing input): lowering the binary
expression a + b in a scope binding both a and b produces an add of the
left operand with itself — the source computes both L and R by
`LHS->codegen()`, so the left operand is lowered twice and the right
operand is never lowered, contradicting the claim that each operand is
lowered exactly once. -/
theorem binaryExpr_codegen_lowers_left_twice :
    codegenExpr (.binaryExpr '+' (.variableExpr "a") (.variableExpr "b"))
        ⟨[], [("a", some (.argVal 0 "a")), ("b", some (.argVal 1 "b"))], []⟩ =
      (some (.faddV (.argVal 0 "a") (.argVal 0 "a")),
        ⟨[], [("a", some (.argVal 0 "a")), ("b", some (.argVal 1 "b"))], []⟩) := rfl

/-- chainState on the empty chain. -/
theorem chainState_nil : chainState [] = ⟨.eof, [], startupPrecedence⟩ := rfl

/-- chainState on a nonempty chain. -/
theorem chainState_cons (o : Char) (b : Rat) (t : List (Char × Rat)) :
    chainState ((o, b) :: t) = ⟨.ch o, .number b :: opToks t, startupPrecedence⟩ := rfl

/-- Pulling the next token of an operator/number stream reaches the chain
state of the remaining chain, whatever the consumed lookahead was. -/
theorem getNextToken_opToks (tok : Tok) (t : List (Char × Rat)) :
    getNextToken ⟨tok, opToks t, startupPrecedence⟩ = chainState t := by
  cases t with
  | nil => rfl
  | cons p t2 => rfl

/-- An operator of the startup table has positive precedence. -/
theorem precOf_pos {o : Char} (h : o = '<' ∨ o = '+' ∨ o = '-' ∨ o = '*') :
    0 < precOf o := by
  rcases h with rfl | rfl | rfl | rfl <;> decide

/-- GetTokPrecedence at a startup-table operator reports its precedence
and leaves the state unchanged (found keys are not inserted). -/
theorem GetTokPrecedence_validOp {o : Char}
    (h : o = '<' ∨ o = '+' ∨ o = '-' ∨ o = '*') (ts : List Tok) :
    GetTokPrecedence ⟨.ch o, ts, startupPrecedence⟩ =
      (precOf o, ⟨.ch o, ts, startupPrecedence⟩) := by
  rcases h with rfl | rfl | rfl | rfl <;> rfl

/-- GetTokPrecedence at end of input: -1, state unchanged. -/
theorem GetTokPrecedence_eof (ts : List Tok) (m : List (Char × Int)) :
    GetTokPrecedence ⟨.eof, ts, m⟩ = (-1, ⟨.eof, ts, m⟩) := rfl

/-- Splitting takeWhile of a weaker predicate at a stronger one. -/
theorem takeWhile_split_of_imp {α : Type _} (q r : α → Bool)
    (himp : ∀ x, q x = true → r x = true) :
    ∀ l : List α, l.takeWhile r = l.takeWhile q ++ (l.dropWhile q).takeWhile r := by
  intro l
  induction l with
  | nil => rfl
  | cons x t ih =>
    cases hq : q x with
    | true =>
      rw [List.takeWhile_cons_of_pos (himp x hq), List.takeWhile_cons_of_pos hq,
        List.dropWhile_cons_of_pos hq, List.cons_append, ih]
    | false =>
      rw [List.takeWhile_cons_of_neg (p := q) (by simp [hq]),
        List.dropWhile_cons_of_neg (p := q) (by simp [hq]), List.nil_append]

/-- Splitting dropWhile of a weaker predicate at a stronger one. -/
theorem dropWhile_split_of_imp {α : Type _} (q r : α → Bool)
    (himp : ∀ x, q x = true → r x = true) :
    ∀ l : List α, l.dropWhile r = (l.dropWhile q).dropWhile r := by
  intro l
  induction l with
  | nil => rfl
  | cons x t ih =>
    cases hq : q x with
    | true => rw [List.dropWhile_cons_of_pos hq, List.dropWhile_cons_of_pos (himp x hq), ih]
    | false => rw [List.dropWhile_cons_of_neg (p := q) (by simp [hq])]

/-- The head surviving dropWhile fails the predicate. -/
theorem dropWhile_head_false {α : Type _} (q : α → Bool) :
    ∀ (l : List α) (x : α) (xs : List α), l.dropWhile q = x :: xs → q x = false := by
  intro l
  induction l with
  | nil => intro x xs h; simp at h
  | cons y t ih =>
    intro x xs h
    cases hq : q y with
    | true => rw [List.dropWhile_cons_of_pos hq] at h; exact ih x xs h
    | false =>
      rw [List.dropWhile_cons_of_neg (by simp [hq])] at h
      cases h
      exact hq

/-- takeWhile keeps the whole list when the predicate holds throughout. -/
theorem takeWhile_eq_self_of_all {α : Type _} (q : α → Bool) :
    ∀ l : List α, (∀ x ∈ l, q x = true) → l.takeWhile q = l := by
  intro l
  induction l with
  | nil => intro _; rfl
  | cons x t ih =>
    intro h
    rw [List.takeWhile_cons_of_pos (h x (List.mem_cons_self x t)),
      ih (fun y hy => h y (List.mem_cons_of_mem x hy))]

/-- Inserting a run of operators that all bind strictly tighter than the
root happens entirely inside the right subtree. -/
theorem foldl_insertOp_descend (o : Char) (L : Expr) :
    ∀ (t1 : List (Char × Rat)) (R : Expr),
      (∀ p ∈ t1, precOf o < precOf p.1) →
      t1.foldl (fun t p => insertOp t p.1 p.2) (.binaryExpr o L R) =
        .binaryExpr o L (t1.foldl (fun t p => insertOp t p.1 p.2) R) := by
  intro t1
  induction t1 with
  | nil => intro R _; rfl
  | cons p t ih =>
    intro R h
    have hp : precOf o < precOf p.1 := h p (List.mem_cons_self p t)
    have hstep : insertOp (.binaryExpr o L R) p.1 p.2 = .binaryExpr o L (insertOp R p.1 p.2) := by
      simp only [insertOp]
      rw [if_pos hp]
    simp only [List.foldl_cons]
    rw [hstep]
    exact ih (insertOp R p.1 p.2) (fun y hy => h y (List.mem_cons_of_mem p hy))

set_option maxHeartbeats 1600000 in
/-- The central lemma: on any chain state whose operators are in the
startup table, ParseBinOpRHS consumes exactly the operators of precedence
at least exprPrec and returns the tree obtained by folding the spec's
grouping rule over them, leaving the chain state of the rest.  The last
hypothesis is the loop invariant: the pending operator, if consumed at
this level, attaches at the root of lhs. -/
theorem ParseBinOpRHS_chain :
    ∀ (fuel : Nat) (l : List (Char × Rat)) (exprPrec : Int) (lhs : Expr),
      l.length < fuel → 0 ≤ exprPrec →
      (∀ p ∈ l, p.1 = '<' ∨ p.1 = '+' ∨ p.1 = '-' ∨ p.1 = '*') →
      (∀ o b t2, l = (o, b) :: t2 → exprPrec ≤ precOf o →
        insertOp lhs o b = .binaryExpr o lhs (.numberExpr b)) →
      ParseBinOpRHS fuel exprPrec lhs (chainState l) =
        (some ((l.takeWhile (fun p => decide (exprPrec ≤ precOf p.1))).foldl
            (fun t p => insertOp t p.1 p.2) lhs),
          chainState (l.dropWhile (fun p => decide (exprPrec ≤ precOf p.1)))) := by
  intro fuel
  induction fuel with
  | zero =>
    intro l exprPrec lhs hfuel hprec hv hlhs
    exact absurd hfuel (Nat.not_lt_zero _)
  | succ n ih =>
    intro l exprPrec lhs hfuel hprec hv hlhs
    cases l with
    | nil =>
      rw [chainState_nil]
      simp only [ParseBinOpRHS]
      rw [GetTokPrecedence_eof]
      dsimp only
      rw [if_pos (by omega : (-1 : Int) < exprPrec)]
      simp [chainState_nil]
    | cons hd t =>
      obtain ⟨o, b⟩ := hd
      have hvo : o = '<' ∨ o = '+' ∨ o = '-' ∨ o = '*' := hv (o, b) (List.mem_cons_self _ _)
      have hpo : 0 < precOf o := precOf_pos hvo
      rw [chainState_cons]
      simp only [ParseBinOpRHS]
      rw [GetTokPrecedence_validOp hvo]
      dsimp only
      by_cases hstop : precOf o < exprPrec
      · rw [if_pos hstop]
        have hdec : decide (exprPrec ≤ precOf (o, b).1) = false :=
          decide_eq_false (not_le.mpr hstop)
        rw [List.takeWhile_cons_of_neg (by simp [hdec]),
          List.dropWhile_cons_of_neg (by simp [hdec]), chainState_cons]
        rfl
      · have hge : exprPrec ≤ precOf o := not_lt.mp hstop
        rw [if_neg hstop]
        have hn1 : 1 ≤ n := by
          simp only [List.length_cons] at hfuel
          omega
        obtain ⟨m, rfl⟩ : ∃ m, n = m + 1 := ⟨n - 1, by omega⟩
        dsimp only [getNextToken]
        simp only [ParsePrimary, ParseNumberExpr]
        rw [getNextToken_opToks]
        try dsimp only
        have hins : insertOp lhs o b = .binaryExpr o lhs (.numberExpr b) :=
          hlhs o b t rfl hge
        cases t with
        | nil =>
          rw [chainState_nil, GetTokPrecedence_eof]
          dsimp only
          rw [if_neg (by omega : ¬ precOf o < (-1 : Int))]
          rw [← chainState_nil]
          rw [ih [] exprPrec (.binaryExpr o lhs (.numberExpr b)) (by simp)
            hprec (by simp) (by intro o2 b2 t2 h2; simp at h2)]
          have hdec : decide (exprPrec ≤ precOf (o, b).1) = true := decide_eq_true hge
          rw [List.takeWhile_cons_of_pos (by simp [hdec]),
            List.dropWhile_cons_of_pos (by simp [hdec])]
          simp only [List.takeWhile_nil, List.dropWhile_nil, List.foldl_cons, List.foldl_nil,
            hins]
        | cons hd2 t2 =>
          obtain ⟨o2, c⟩ := hd2
          have hvo2 : o2 = '<' ∨ o2 = '+' ∨ o2 = '-' ∨ o2 = '*' :=
            hv (o2, c) (List.mem_cons_of_mem _ (List.mem_cons_self _ _))
          rw [chainState_cons, GetTokPrecedence_validOp hvo2]
          dsimp only
          have hdech : decide (exprPrec ≤ precOf (o, b).1) = true := decide_eq_true hge
          by_cases habs : precOf o < precOf o2
          · rw [if_pos habs]
            have himp : ∀ x : Char × Rat,
                decide (precOf o + 1 ≤ precOf x.1) = true →
                decide (exprPrec ≤ precOf x.1) = true := by
              intro x hx
              have := of_decide_eq_true hx
              exact decide_eq_true (by omega)
            rw [List.takeWhile_cons_of_pos (by simp [hdech]),
              List.dropWhile_cons_of_pos (by simp [hdech])]
            rw [takeWhile_split_of_imp _ _ himp ((o2, c) :: t2),
              dropWhile_split_of_imp _ _ himp ((o2, c) :: t2)]
            rw [List.foldl_cons, hins, List.foldl_append]
            rw [foldl_insertOp_descend o lhs _ _ (by
              intro p hp
              have h1 := List.mem_takeWhile_imp hp
              have h2 := of_decide_eq_true h1
              omega)]
            rw [← chainState_cons]
            rw [ih ((o2, c) :: t2) (precOf o + 1) (.numberExpr b)
              (by simp only [List.length_cons] at hfuel ⊢; omega)
              (by omega)
              (fun p hp => hv p (List.mem_cons_of_mem _ hp))
              (by intro o3 b3 t3 h3 hge3; rfl)]
            try dsimp only
            rw [ih (((o2, c) :: t2).dropWhile (fun p => decide (precOf o + 1 ≤ precOf p.1)))
              exprPrec
              (.binaryExpr o lhs
                ((((o2, c) :: t2).takeWhile (fun p => decide (precOf o + 1 ≤ precOf p.1))).foldl
                  (fun t p => insertOp t p.1 p.2) (.numberExpr b)))
              (by
                have hsub := List.Sublist.length_le
                  (List.dropWhile_sublist (l := (o2, c) :: t2)
                    (p := fun p => decide (precOf o + 1 ≤ precOf p.1)))
                simp only [List.length_cons] at hfuel hsub ⊢
                omega)
              hprec
              (fun p hp => hv p (List.mem_cons_of_mem _
                ((List.dropWhile_sublist _).mem hp)))
              (by
                intro o3 b3 t3 h3 hge3
                have hq3 : decide (precOf o + 1 ≤ precOf o3) = false := by
                  have := dropWhile_head_false
                    (fun p => decide (precOf o + 1 ≤ precOf p.1)) ((o2, c) :: t2)
                    (o3, b3) t3 h3
                  simpa using this
                have hle3 : ¬ precOf o < precOf o3 := by
                  have := of_decide_eq_false hq3
                  omega
                simp only [insertOp]
                rw [if_neg hle3])]
          · rw [if_neg habs]
            rw [List.takeWhile_cons_of_pos (by simp [hdech]),
              List.dropWhile_cons_of_pos (by simp [hdech])]
            rw [List.foldl_cons, hins]
            rw [← chainState_cons]
            rw [ih ((o2, c) :: t2) exprPrec (.binaryExpr o lhs (.numberExpr b))
              (by simp only [List.length_cons] at hfuel ⊢; omega)
              hprec
              (fun p hp => hv p (List.mem_cons_of_mem _ hp))
              (by
                intro o3 b3 t3 h3 hge3
                cases h3
                simp only [insertOp]
                rw [if_neg habs])]

/-- ParseExpression on any valid chain, with sufficient fuel, returns the
spec-side expected tree. -/
theorem ParseExpression_chain (fuel : Nat) (a : Rat) (ops : List (Char × Rat))
    (hfuel : ops.length + 2 ≤ fuel)
    (hv : ∀ p ∈ ops, p.1 = '<' ∨ p.1 = '+' ∨ p.1 = '-' ∨ p.1 = '*') :
    (ParseExpression fuel (mkPState (chainToks a ops))).1 = some (specTree a ops) := by
  obtain ⟨n, rfl⟩ : ∃ n, fuel = n + 1 := ⟨fuel - 1, by omega⟩
  obtain ⟨m, rfl⟩ : ∃ m, n = m + 1 := ⟨n - 1, by omega⟩
  rw [show mkPState (chainToks a ops) = ⟨.number a, opToks ops, startupPrecedence⟩ from rfl]
  simp only [ParseExpression, ParsePrimary, ParseNumberExpr]
  try dsimp only
  rw [getNextToken_opToks]
  rw [ParseBinOpRHS_chain (m + 1) ops 0 (.numberExpr a)
    (by omega) le_rfl hv
    (by intro o b t2 h2 hge; rfl)]
  rw [takeWhile_eq_self_of_all _ ops (fun p hp =>
    decide_eq_true (le_of_lt (precOf_pos (hv p hp))))]
  rfl

/-- C2: for every valid operator sequence — every chain n0 op1 n1 ... opk
nk whose operators are in the precedence table — ParseExpression builds
exactly the tree prescribed by the spec's grouping rules (specTree: a
tighter-binding operator is absorbed lower into the right-hand side, an
operator binding no tighter becomes the new root, which is strict left
associativity at equal precedence); on an all-equal-precedence sequence
that tree is the plain left-associated fold; and in particular the input
1+2*3-4 parses to the tree ((1 + (2*3)) - 4). -/
theorem parseExpression_left_assoc_precedence :
    (∀ (fuel : Nat) (a : Rat) (ops : List (Char × Rat)),
        ops.length + 2 ≤ fuel →
        (∀ p ∈ ops, p.1 = '<' ∨ p.1 = '+' ∨ p.1 = '-' ∨ p.1 = '*') →
        (ParseExpression fuel (mkPState (chainToks a ops))).1 = some (specTree a ops)) ∧
    (∀ (a : Rat) (ops : List (Char × Rat)) (q : Int),
        (∀ p ∈ ops, precOf p.1 = q) →
        specTree a ops =
          ops.foldl (fun t p => .binaryExpr p.1 t (.numberExpr p.2)) (.numberExpr a)) ∧
    specTree 1 [('+', 2), ('*', 3), ('-', 4)] =
      .binaryExpr '-'
        (.binaryExpr '+' (.numberExpr 1) (.binaryExpr '*' (.numberExpr 2) (.numberExpr 3)))
        (.numberExpr 4) ∧
    (ParseExpression 30 (mkPState (tokenize "1+2*3-4"))).1 =
      some (.binaryExpr '-'
        (.binaryExpr '+' (.numberExpr 1) (.binaryExpr '*' (.numberExpr 2) (.numberExpr 3)))
        (.numberExpr 4)) := by
  refine ⟨ParseExpression_chain, ?_, by decide, by decide⟩
  intro a ops q hq
  suffices h : ∀ (ops : List (Char × Rat)) (acc : Expr),
      (∀ p ∈ ops, precOf p.1 = q) →
      (∀ o2 b2, precOf o2 = q → insertOp acc o2 b2 = .binaryExpr o2 acc (.numberExpr b2)) →
      ops.foldl (fun t p => insertOp t p.1 p.2) acc =
        ops.foldl (fun t p => .binaryExpr p.1 t (.numberExpr p.2)) acc by
    exact h ops (.numberExpr a) hq (fun o2 b2 _ => rfl)
  intro ops2
  induction ops2 with
  | nil => intro acc _ _; rfl
  | cons p t ih =>
    intro acc hall hacc
    have hpq : precOf p.1 = q := hall p (List.mem_cons_self p t)
    simp only [List.foldl_cons]
    rw [hacc p.1 p.2 hpq]
    exact ih (.binaryExpr p.1 acc (.numberExpr p.2))
      (fun y hy => hall y (List.mem_cons_of_mem p hy))
      (by
        intro o2 b2 hq2
        simp only [insertOp]
        rw [if_neg (by rw [hpq, hq2]; omega)])

/-- Witness for C2: the universal conjunct at the chain 1 + 2 * 3 - 4. -/
theorem parseExpression_left_assoc_precedence_witness :
    (ParseExpression 30 (mkPState (chainToks 1 [('+', 2), ('*', 3), ('-', 4)]))).1 =
      some (specTree 1 [('+', 2), ('*', 3), ('-', 4)]) :=
  parseExpression_left_assoc_precedence.1 30 1 [('+', 2), ('*', 3), ('-', 4)]
    (by decide) (by decide)

/-- C3 (code evaluated at the failing input): with extern f(a) in the
module, lowering the call f(c) in an empty scope has its only argument
fail (c is unbound, the unknown-variable diagnostic is logged), yet the
call lowering succeeds and emits a call instruction carrying the null
argument — the per-argument check tests the AST pointer `Args.back()`
instead of the lowered value, so argument failure is not propagated. -/
theorem callExpr_codegen_emits_call_with_null_arg :
    codegenExpr (.callExpr "f" [.variableExpr "c"]) (prototypeCodegen ⟨"f", ["a"]⟩ emptyCG).2 =
      (some (.callV "f" [none]),
        ⟨[⟨"f", ["a"], false, none⟩], [("c", none)], ["Unkown variable name."]⟩) := rfl

/-- C6 counterexample: a precedence lookup during parsing does change the
set of keys of the table — with CurTok the ordinary input token ';', the
bracket access inserts ';' with value 0 into the startup table. -/
theorem getTokPrecedence_lookup_inserts_key :
    mapFind startupPrecedence ';' = none ∧
    mapFind ((GetTokPrecedence
        { curTok := .ch ';', toks := [], prec := startupPrecedence }).2).prec ';' = some 0 := by
  decide

/-- After GetTokPrecedence the precedence table is either unchanged or has
exactly one new entry: an absent key default-inserted with value 0. -/
theorem GetTokPrecedence_prec_cases (s : PState) :
    ((GetTokPrecedence s).2).prec = s.prec ∨
    ∃ d : Char, s.prec.find? (fun p => p.1 == d) = none ∧
      ((GetTokPrecedence s).2).prec = s.prec ++ [(d, (0 : Int))] := by
  rcases s with ⟨tok, toks, prec⟩
  cases tok with
  | ch d =>
    by_cases hascii : d.toNat ≤ 127
    · unfold GetTokPrecedence mapIndex
      cases hfind : prec.find? (fun p => p.1 == d) with
      | some p => left; simp [hascii, hfind]
      | none => right; exact ⟨d, hfind, by simp [hascii, hfind]⟩
    · left; simp [GetTokPrecedence, hascii]
  | eof => left; rfl
  | kdef => left; rfl
  | kextern => left; rfl
  | ident n => left; rfl
  | number v => left; rfl

/-- C6 amended: a precedence lookup never changes any binding already in
the table (in particular the four startup operators keep their values);
the only mutation it can make is default-inserting an absent ASCII key
with value 0. -/
theorem getTokPrecedence_preserves_bindings :
    ∀ (s : PState) (c : Char),
      mapFind ((GetTokPrecedence s).2).prec c = mapFind s.prec c ∨
      (mapFind s.prec c = none ∧ mapFind ((GetTokPrecedence s).2).prec c = some 0) := by
  intro s c
  rcases GetTokPrecedence_prec_cases s with h | ⟨d, hd, h⟩
  · left; rw [h]
  · by_cases hcd : c = d
    · subst hcd
      right
      refine ⟨by simp [mapFind, hd], ?_⟩
      rw [h]
      simp [mapFind, List.find?_append, hd]
    · left
      rw [h]
      have hne : List.find? (fun p => p.1 == c) [(d, (0 : Int))] = none := by
        simp only [List.find?]
        have hdc : ((d, (0 : Int)).1 == c) = false := by
          simp only [beq_eq_false_iff_ne, ne_eq]
          exact fun hh => hcd hh.symm
        rw [hdc]
      simp only [mapFind, List.find?_append, hne, Option.or_none]

/-- Whenever gettokF reports end of input, the stored lookahead character
of the resulting lexer state is the EOF marker. -/
theorem gettokF_eof_lastChar : ∀ (fuel : Nat) (c : Option Char) (inp : List Char),
    (gettokF fuel c inp).1 = .eof → (gettokF fuel c inp).2.1 = none := by
  intro fuel
  induction fuel with
  | zero => intro c inp _; rfl
  | succ n ih =>
    intro c inp
    unfold gettokF
    rcases hsw : skipWs c inp with ⟨c', inp'⟩
    cases c' with
    | none => intro _; rfl
    | some ch =>
      dsimp only
      by_cases h1 : ch.isAlpha = true
      · simp only [if_pos h1]
        rcases hid : identLoop (String.singleton ch) inp' with ⟨id, c2, inp2⟩
        intro hEof
        split_ifs at hEof
      · simp only [if_neg h1]
        by_cases h2 : (ch.isDigit || ch = '.') = true
        · simp only [if_pos h2]
          rcases hnum : numLoop (String.singleton ch) inp' with ⟨numStr, c2, inp2⟩
          intro hEof
          simp at hEof
        · simp only [if_neg h2]
          by_cases h3 : ch = '#'
          · simp only [if_pos h3]
            rcases hsc : skipComment inp' with ⟨oc, inp2⟩
            cases oc with
            | some c2 => exact ih (some c2) inp2
            | none => intro _; rfl
          · simp only [if_neg h3]
            cases inp' with
            | nil => intro hEof; simp at hEof
            | cons x xs => intro hEof; simp at hEof

/-- A lexer state whose lookahead is the EOF marker is a fixed point of
gettok: it returns the end-of-input token and leaves the state as is. -/
theorem gettok_none_absorbing (inp : List Char) : gettok none inp = (.eof, none, inp) := by
  cases inp with
  | nil => rfl
  | cons x xs => rfl

/-- C8: once gettok returns the end-of-input token, every subsequent call
(any number of further steps from the resulting lexer state) returns the
end-of-input token again and leaves the state unchanged. -/
theorem gettok_eof_absorbing (s : Option Char × List Char)
    (h : (lexStep s).1 = .eof) :
    ∀ n : Nat,
      lexStep ((fun t => (lexStep t).2)^[n] (lexStep s).2) = (.eof, (lexStep s).2) := by
  have h2 : (lexStep s).2.1 = none := gettokF_eof_lastChar _ _ _ h
  have hfix : lexStep (lexStep s).2 = (.eof, (lexStep s).2) := by
    calc lexStep (lexStep s).2 = gettok (lexStep s).2.1 (lexStep s).2.2 := rfl
      _ = gettok none (lexStep s).2.2 := by rw [h2]
      _ = (.eof, none, (lexStep s).2.2) := gettok_none_absorbing _
      _ = (.eof, (lexStep s).2) := by rw [← h2]
  intro n
  induction n with
  | zero => exact hfix
  | succ k ihk =>
    rw [Function.iterate_succ_apply]
    rw [show (lexStep (lexStep s).2).2 = (lexStep s).2 from by rw [hfix]]
    exact ihk

/-- Witness for C8: from the initial lexer state on empty input, gettok
reports end of input, and two steps later it still does. -/
theorem gettok_eof_absorbing_witness :
    lexStep ((fun t => (lexStep t).2)^[2] (lexStep (some ' ', [])).2) =
      (.eof, (lexStep (some ' ', [])).2) :=
  gettok_eof_absorbing (some ' ', []) rfl 2

/-- C7: CallExpr lowering fails with the unknown-function diagnostic when
the callee resolves to nothing in the module, fails with the
argument-count diagnostic when the callee's arity differs from the number
of call arguments, and, after extern sin(a), the call sin(0) lowers
successfully while sin(0,0) fails. -/
theorem callExpr_codegen_resolution :
    (∀ (st : CGState) (callee : String) (args : List Expr),
        getFunction st.module callee = none →
        codegenExpr (.callExpr callee args) st =
          (none, logError st "Unkown function refrenced.")) ∧
    (∀ (st : CGState) (callee : String) (args : List Expr) (f : FunctionIR),
        getFunction st.module callee = some f → f.args.length ≠ args.length →
        codegenExpr (.callExpr callee args) st =
          (none, logError st "Incorrect number of arguments passed.")) ∧
    codegenExpr (.callExpr "sin" [.numberExpr 0]) (prototypeCodegen ⟨"sin", ["a"]⟩ emptyCG).2 =
      (some (.callV "sin" [some (.constantFP 0)]),
        (prototypeCodegen ⟨"sin", ["a"]⟩ emptyCG).2) ∧
    (codegenExpr (.callExpr "sin" [.numberExpr 0, .numberExpr 0])
        (prototypeCodegen ⟨"sin", ["a"]⟩ emptyCG).2).1 = none := by
  refine ⟨?_, ?_, rfl, rfl⟩
  · intro st callee args h
    unfold codegenExpr
    rw [h]
  · intro st callee args f h hlen
    unfold codegenExpr
    rw [h]
    simp only [if_pos hlen]

/-- Witness for C7: the unknown-function conjunct at a call of g in the
empty module. -/
theorem callExpr_codegen_resolution_witness :
    codegenExpr (.callExpr "g" []) emptyCG = (none, logError emptyCG "Unkown function refrenced.") :=
  callExpr_codegen_resolution.1 emptyCG "g" [] rfl

/-- C10: lowering a VariableExpr whose name is not bound in the symbol
scope returns the null result, logs the unknown-variable diagnostic, and
mutates the scope: the bracket access default-inserts a null binding for
the name. -/
theorem variableExpr_codegen_null_insert (st : CGState) (name : String)
    (h : st.namedValues.find? (fun p => p.1 == name) = none) :
    codegenExpr (.variableExpr name) st =
      (none, { st with namedValues := st.namedValues ++ [(name, none)],
                       errors := st.errors ++ ["Unkown variable name."] }) := by
  unfold codegenExpr nvBracket
  rw [h]
  rfl

/-- Witness for C10: lowering the variable x in the empty session. -/
theorem variableExpr_codegen_null_insert_witness :
    codegenExpr (.variableExpr "x") emptyCG =
      (none, ⟨[], [("x", none)], ["Unkown variable name."]⟩) :=
  variableExpr_codegen_null_insert emptyCG "x" rfl

mutual

/-- Lowering an expression never adds or removes module functions
(CallExpr only reads the module; nothing else touches it). -/
theorem codegenExpr_module : ∀ (e : Expr) (st : CGState),
    ((codegenExpr e st).2).module = st.module
  | .numberExpr v, st => rfl
  | .variableExpr name, st => by
    unfold codegenExpr
    rcases hnv : nvBracket st.namedValues name with ⟨v, nv⟩
    cases v <;> rfl
  | .binaryExpr op l r, st => by
    have e1 := codegenExpr_module l st
    unfold codegenExpr
    rcases h1 : codegenExpr l st with ⟨lres, st1⟩
    rw [h1] at e1
    dsimp only at e1 ⊢
    have e2 := codegenExpr_module l st1
    rcases h2 : codegenExpr l st1 with ⟨rres, st2⟩
    rw [h2] at e2
    dsimp only at e2
    try rw [h2]
    dsimp only
    cases lres <;> cases rres <;> try split_ifs
    all_goals simp [logError, e1, e2]
  | .callExpr callee args, st => by
    unfold codegenExpr
    cases hg : getFunction st.module callee with
    | none => simp [logError]
    | some f =>
      by_cases hl : f.args.length ≠ args.length
      · simp [hl, logError]
      · have e2 := codegenArgs_module args st
        rcases hargs : codegenArgs args st with ⟨vs, st2⟩
        rw [hargs] at e2
        dsimp only at e2
        try rw [hargs]
        simp [hl, e2]

/-- Companion of codegenExpr_module for the argument loop. -/
theorem codegenArgs_module : ∀ (l : List Expr) (st : CGState),
    ((codegenArgs l st).2).module = st.module
  | [], st => rfl
  | a :: rest, st => by
    have e1 := codegenExpr_module a st
    unfold codegenArgs
    rcases h1 : codegenExpr a st with ⟨v, st1⟩
    rw [h1] at e1
    dsimp only at e1 ⊢
    have e2 := codegenArgs_module rest st1
    rcases h2 : codegenArgs rest st1 with ⟨vs, st2⟩
    rw [h2] at e2
    dsimp only at e2
    try rw [h2]
    simp [e1, e2]

end

/-- Lowering a variable absent from the symbol scope: null result, the
unknown-variable diagnostic, and a default-inserted null binding. -/
theorem codegenExpr_variable_miss (st : CGState) (name : String)
    (h : st.namedValues.find? (fun p => p.1 == name) = none) :
    codegenExpr (.variableExpr name) st =
      (none, { st with namedValues := st.namedValues ++ [(name, none)],
                       errors := st.errors ++ ["Unkown variable name."] }) := by
  unfold codegenExpr nvBracket
  rw [h]
  rfl

/-- nvAssign with one key does not affect find? queries for another key. -/
theorem nvAssign_find?_other (a k : String) (h : (a == k) = false) (v : Option Value) :
    ∀ m : List (String × Option Value),
      (nvAssign m a v).find? (fun p => p.1 == k) = m.find? (fun p => p.1 == k) := by
  intro m
  induction m with
  | nil =>
    simp only [nvAssign, List.find?]
    rw [show (((a, v) : String × Option Value).1 == k) = false from h]
  | cons p rest ih =>
    unfold nvAssign
    by_cases hp : (p.1 == a) = true
    · rw [if_pos hp]
      have hpa : p.1 = a := by simpa using hp
      simp only [List.find?]
      rw [show ((a == k) : Bool) = false from h,
        show ((p.1 == k) : Bool) = false from by rw [hpa]; exact h]
    · simp only [if_neg hp]
      cases hk : (p.1 == k) with
      | true => simp [List.find?, hk]
      | false => simp [List.find?, hk, ih]

/-- A name that is not among the bound parameter names is not found in the
scope that buildScope constructs. -/
theorem buildScope_find?_notMem (k : String) :
    ∀ (args : List String) (i : Nat) (m : List (String × Option Value)), k ∉ args →
      (buildScope args i m).find? (fun p => p.1 == k) = m.find? (fun p => p.1 == k) := by
  intro args
  induction args with
  | nil => intro i m _; rfl
  | cons a rest ih =>
    intro i m hk
    have hka : ¬k = a := fun hh => hk (hh ▸ List.mem_cons_self a rest)
    have hne : (a == k) = false := by
      simp only [beq_eq_false_iff_ne, ne_eq]
      exact fun hh => hka hh.symm
    unfold buildScope
    rw [ih (i + 1) _ (fun hh => hk (List.mem_cons_of_mem a hh))]
    exact nvAssign_find?_other a k hne _ m

/-- C9: when a module function of the definition's name already exists
without a body (e.g. from an extern), FunctionAST::codegen rebuilds the
scope from that existing function's parameter names and ignores the
definition's own prototype parameter names (protoArgs is arbitrary here),
so a body consisting of a parameter name outside the existing
declaration's names fails with the unknown-variable diagnostic. -/
theorem functionCodegen_existing_decl_names (st : CGState) (fname a : String)
    (protoArgs : List String) (f : FunctionIR)
    (hf : getFunction st.module fname = some f)
    (hne : f.hasEntry = false) (ha : a ∉ f.args) :
    (functionCodegen ⟨⟨fname, protoArgs⟩, .variableExpr a⟩ st).1 = none ∧
    "Unkown variable name." ∈
      ((functionCodegen ⟨⟨fname, protoArgs⟩, .variableExpr a⟩ st).2).errors := by
  have hr : resolveFn ⟨⟨fname, protoArgs⟩, .variableExpr a⟩ st = (f, st) := by
    unfold resolveFn
    dsimp only
    rw [hf]
  unfold functionCodegen
  rw [hr]
  dsimp only
  have hscope : (entryState f st).namedValues.find? (fun p => p.1 == a) = none := by
    show (buildScope f.args 0 []).find? (fun p => p.1 == a) = none
    rw [buildScope_find?_notMem a f.args 0 [] ha]
    rfl
  rw [hne]
  simp only [Bool.false_eq_true, if_false]
  rw [codegenExpr_variable_miss (entryState f st) a hscope]
  dsimp only
  exact ⟨rfl, by simp [entryState]⟩

/-- Witness for C9: after extern foo(x), lowering def foo(a) a fails with
the unknown-variable diagnostic because the scope is built from x, not a. -/
theorem functionCodegen_existing_decl_names_witness :
    (functionCodegen ⟨⟨"foo", ["a"]⟩, .variableExpr "a"⟩
        (prototypeCodegen ⟨"foo", ["x"]⟩ emptyCG).2).1 = none ∧
    "Unkown variable name." ∈
      ((functionCodegen ⟨⟨"foo", ["a"]⟩, .variableExpr "a"⟩
        (prototypeCodegen ⟨"foo", ["x"]⟩ emptyCG).2).2).errors :=
  functionCodegen_existing_decl_names (prototypeCodegen ⟨"foo", ["x"]⟩ emptyCG).2
    "foo" "a" ["a"] ⟨"foo", ["x"], false, none⟩ rfl rfl (by decide)

/-- C5: lowering a definition whose name already has a body (a non-empty
function) in the module fails with the redefinition diagnostic and leaves
the state otherwise untouched, so the previous definition is still found
by a lookup of the name. -/
theorem functionCodegen_redefinition_error (name : String) (protoArgs : List String)
    (body : Expr) (st : CGState) (f : FunctionIR)
    (h : getFunction st.module name = some f) (hb : f.hasEntry = true) :
    functionCodegen ⟨⟨name, protoArgs⟩, body⟩ st =
      (none, logError st "Function cannot be redefined.") ∧
    getFunction ((functionCodegen ⟨⟨name, protoArgs⟩, body⟩ st).2).module name = some f := by
  have hmain : functionCodegen ⟨⟨name, protoArgs⟩, body⟩ st =
      (none, logError st "Function cannot be redefined.") := by
    unfold functionCodegen resolveFn
    dsimp only
    rw [h]
    dsimp only
    simp [hb]
  refine ⟨hmain, ?_⟩
  rw [hmain]
  exact h

/-- Witness for C5: after lowering def foo(a) a+1 in the empty session, a
second def foo(a) a+2 fails with the redefinition diagnostic and foo still
resolves to the first definition. -/
theorem functionCodegen_redefinition_error_witness :
    functionCodegen ⟨⟨"foo", ["a"]⟩, .binaryExpr '+' (.variableExpr "a") (.numberExpr 2)⟩
        (functionCodegen ⟨⟨"foo", ["a"]⟩,
          .binaryExpr '+' (.variableExpr "a") (.numberExpr 1)⟩ emptyCG).2 =
      (none, logError (functionCodegen ⟨⟨"foo", ["a"]⟩,
          .binaryExpr '+' (.variableExpr "a") (.numberExpr 1)⟩ emptyCG).2
        "Function cannot be redefined.") ∧
    getFunction ((functionCodegen ⟨⟨"foo", ["a"]⟩,
          .binaryExpr '+' (.variableExpr "a") (.numberExpr 2)⟩
        (functionCodegen ⟨⟨"foo", ["a"]⟩,
          .binaryExpr '+' (.variableExpr "a") (.numberExpr 1)⟩ emptyCG).2).2).module "foo" =
      some ⟨"foo", ["a"], true, some (.faddV (.argVal 0 "a") (.argVal 0 "a"))⟩ :=
  functionCodegen_redefinition_error "foo" ["a"]
    (.binaryExpr '+' (.variableExpr "a") (.numberExpr 2))
    (functionCodegen ⟨⟨"foo", ["a"]⟩,
      .binaryExpr '+' (.variableExpr "a") (.numberExpr 1)⟩ emptyCG).2
    ⟨"foo", ["a"], true, some (.faddV (.argVal 0 "a") (.argVal 0 "a"))⟩ rfl rfl

/-- resolveFn either returns an existing module function unchanged or
registers the prototype's fresh, body-less function. -/
theorem resolveFn_cases (fn : FunctionAST) (st : CGState) :
    (∃ f, getFunction st.module fn.proto.name = some f ∧ resolveFn fn st = (f, st)) ∨
    (getFunction st.module fn.proto.name = none ∧
      resolveFn fn st = (⟨fn.proto.name, fn.proto.args, false, none⟩,
        { st with module := st.module ++ [⟨fn.proto.name, fn.proto.args, false, none⟩] })) := by
  unfold resolveFn
  cases hg : getFunction st.module fn.proto.name with
  | some f => exact Or.inl ⟨f, rfl, rfl⟩
  | none => exact Or.inr ⟨rfl, rfl⟩

/-- Erasing the first name match after updating it removes the name from
the module entirely, provided the name occurred at most once. -/
theorem getFunction_erase_update_of_unique (n : String) (g : FunctionIR) (hg : g.name = n) :
    ∀ m : List FunctionIR, (m.filter (fun f => f.name == n)).length ≤ 1 →
      getFunction (moduleErase (moduleUpdate m n g) n) n = none := by
  intro m
  induction m with
  | nil => intro _; rfl
  | cons f rest ih =>
    intro hcount
    by_cases hf : (f.name == n) = true
    · rw [show moduleUpdate (f :: rest) n g = g :: rest from by
        simp only [moduleUpdate]; rw [if_pos hf]]
      rw [show moduleErase (g :: rest) n = rest from by
        simp only [moduleErase]; rw [if_pos (by simp [hg])]]
      have hrest : rest.filter (fun f => f.name == n) = [] := by
        rw [List.filter_cons] at hcount
        rw [if_pos hf] at hcount
        simp only [List.length_cons] at hcount
        exact List.length_eq_zero.mp (by omega)
      unfold getFunction
      rw [List.find?_eq_none]
      exact List.filter_eq_nil_iff.mp hrest
    · rw [show moduleUpdate (f :: rest) n g = f :: moduleUpdate rest n g from by
        simp only [moduleUpdate]; rw [if_neg hf]]
      rw [show moduleErase (f :: moduleUpdate rest n g) n =
          f :: moduleErase (moduleUpdate rest n g) n from by
        simp only [moduleErase]; rw [if_neg hf]]
      have hcount' : (rest.filter (fun f => f.name == n)).length ≤ 1 := by
        rw [List.filter_cons] at hcount
        rw [if_neg hf] at hcount
        exact hcount
      have htail := ih hcount'
      unfold getFunction at htail ⊢
      rw [List.find?_cons]
      have hff : (f.name == n) = false := by simpa using hf
      rw [hff]
      exact htail

/-- C4: if, after the function is resolved (or freshly created) and the
entry block and scope are set up, lowering the body fails, then
FunctionAST::codegen fails and the function has been erased from the
module: a lookup of the definition's name finds nothing.  The hypotheses
say the name occurs at most once in the module and only without a body,
i.e. the redefinition error is not taken. -/
theorem functionCodegen_body_failure_erases (fn : FunctionAST) (st : CGState)
    (huniq : (st.module.filter (fun g => g.name == fn.proto.name)).length ≤ 1)
    (hempty : ∀ g ∈ st.module, g.name = fn.proto.name → g.hasEntry = false)
    (hbody : (codegenExpr fn.body
      (entryState (resolveFn fn st).1 (resolveFn fn st).2)).1 = none) :
    (functionCodegen fn st).1 = none ∧
    getFunction ((functionCodegen fn st).2).module fn.proto.name = none := by
  rcases resolveFn_cases fn st with ⟨f, hg, hr⟩ | ⟨hg, hr⟩
  · -- the function already existed in the module, necessarily body-less
    have hfname : f.name = fn.proto.name := by
      have hp := List.find?_some hg
      simpa using hp
    have hentry : f.hasEntry = false :=
      hempty f (List.mem_of_find?_eq_some hg) hfname
    rw [hr] at hbody
    unfold functionCodegen
    rw [hr]
    dsimp only
    rw [hentry]
    simp only [Bool.false_eq_true, if_false]
    have hmod : ((codegenExpr fn.body (entryState f st)).2).module =
        moduleUpdate st.module f.name { f with hasEntry := true } :=
      codegenExpr_module fn.body (entryState f st)
    rcases hcg : codegenExpr fn.body (entryState f st) with ⟨rv, st2⟩
    rw [hcg] at hbody hmod
    dsimp only at hbody hmod
    cases rv with
    | some v => cases hbody
    | none =>
      dsimp only
      refine ⟨rfl, ?_⟩
      rw [hmod, hfname]
      exact getFunction_erase_update_of_unique fn.proto.name
        ⟨fn.proto.name, f.args, true, f.retVal⟩ rfl st.module huniq
  · -- a fresh body-less function was appended to the module
    have hfilter : (st.module.filter (fun g => g.name == fn.proto.name)) = [] := by
      rw [List.filter_eq_nil_iff]
      intro g hgm
      have := List.find?_eq_none.mp hg g hgm
      simpa using this
    rw [hr] at hbody
    unfold functionCodegen
    rw [hr]
    dsimp only
    have hmod : ((codegenExpr fn.body (entryState ⟨fn.proto.name, fn.proto.args, false, none⟩
        { st with module := st.module ++ [⟨fn.proto.name, fn.proto.args, false, none⟩] })).2).module =
        moduleUpdate (st.module ++ [⟨fn.proto.name, fn.proto.args, false, none⟩])
          fn.proto.name { FunctionIR.mk fn.proto.name fn.proto.args false none with hasEntry := true } :=
      codegenExpr_module fn.body _
    rcases hcg : codegenExpr fn.body (entryState ⟨fn.proto.name, fn.proto.args, false, none⟩
        { st with module := st.module ++ [⟨fn.proto.name, fn.proto.args, false, none⟩] })
      with ⟨rv, st2⟩
    rw [hcg] at hbody hmod
    dsimp only at hbody hmod
    cases rv with
    | some v => cases hbody
    | none =>
      dsimp only
      refine ⟨rfl, ?_⟩
      rw [hmod]
      refine getFunction_erase_update_of_unique fn.proto.name _ rfl _ ?_
      rw [List.filter_append, hfilter]
      simp

/-- Witness for C4: lowering def f(a) b in the empty session (the body b
is unbound, so body lowering fails) fails and leaves no function f in the
module. -/
theorem functionCodegen_body_failure_erases_witness :
    (functionCodegen ⟨⟨"f", ["a"]⟩, .variableExpr "b"⟩ emptyCG).1 = none ∧
    getFunction ((functionCodegen ⟨⟨"f", ["a"]⟩, .variableExpr "b"⟩ emptyCG).2).module "f" =
      none :=
  functionCodegen_body_failure_erases ⟨⟨"f", ["a"]⟩, .variableExpr "b"⟩ emptyCG
    (by decide) (by simp [emptyCG]) rfl

end Kaleidoscope
